import Mathlib

/-!
Verification of the Fibonacci core of `rust_lib` (src/rust_lib/src/lib.rs).

The Rust core is:

  fn fibonacci(n: u32) -> Option<u128> {
      let mut a: u128 = 0;
      let mut b: u128 = 1;
      for _ in 0..n {
          (a, b) = (b, a.checked_add(b)?);
      }
      Some(a)
  }

  #[pyfunction]
  fn implementation(n: u32) -> PyResult<u128> {
      fibonacci(n).ok_or_else(|| {
          PyOverflowError::new_err(format!(
              "Overflow occured while computing the {n}th fibonacci number"
          ))
      })
  }

We shallowly embed `u128` values as natural numbers that stay below `2 ^ 128`
(the checked addition maintains this invariant), inputs as natural numbers
(the `u32` range is `n < 2 ^ 32`), and the Python-level error as the message
string the code formats.
-/

/-- `u128::checked_add`: returns the sum when it is representable in 128 bits,
`none` when the true sum exceeds `u128::MAX = 2 ^ 128 - 1`. -/
def checked_add (a b : Nat) : Option Nat :=
  if a + b ≤ 2 ^ 128 - 1 then some (a + b) else none

/-- The loop of `fibonacci`, recursing on the remaining iteration count.
Each Rust iteration executes `(a, b) = (b, a.checked_add(b)?)`: the `?`
operator makes the whole function return `None` at the first overflowing
addition. -/
def fibGo : Nat → Nat → Nat → Option Nat
  | 0, a, _ => some a
  | k + 1, a, b =>
    match checked_add a b with
    | some next => fibGo k b next
    | none => none

/-- `fibonacci` from src/rust_lib/src/lib.rs: starts from `a = 0`, `b = 1`,
runs the loop `n` times, and returns `Some a`. -/
def fibonacci (n : Nat) : Option Nat :=
  fibGo n 0 1

/-- The error message formatted by `implementation` on overflow
(`format!("Overflow occured while computing the {n}th fibonacci number")`);
`{n}` renders the index in decimal, i.e. `Nat.repr n`. -/
def overflowMessage (n : Nat) : String :=
  "Overflow occured while computing the " ++ Nat.repr n ++ "th fibonacci number"

/-- `implementation` from the `rust_lib` pymodule: `Ok` with the value on
success, a `PyOverflowError` carrying the formatted message on overflow.
We model `PyResult<u128>` as `Except String Nat`, the error being its
message string. -/
def implementation (n : Nat) : Except String Nat :=
  match fibonacci n with
  | some v => Except.ok v
  | none => Except.error (overflowMessage n)

/-- Design-level loop step, written from the spec's §4.1 algorithm:
`next = prev + curr` via checked addition; on success the pair advances to
`(curr, next)`, on overflow the whole computation fails. -/
def specStep (s : Nat × Nat) : Option (Nat × Nat) :=
  match checked_add s.1 s.2 with
  | some next => some (s.2, next)
  | none => none

/-- Design-level loop: repeat `specStep` exactly `n` times, terminating
immediately on the first overflow. -/
def specLoop : Nat → Nat × Nat → Option (Nat × Nat)
  | 0, s => some s
  | k + 1, s =>
    match specStep s with
    | some s2 => specLoop k s2
    | none => none

/-- Design-level algorithm from the spec's §4.1: initialize
`(prev, curr) = (0, 1)`, repeat the checked step `n` times, and after the
loop the result is `prev`. -/
def specCompute (n : Nat) : Option Nat :=
  (specLoop n (0, 1)).map Prod.fst

/-- Instrumented copy of the loop that also counts how many checked
additions are attempted (each iteration attempts exactly one). -/
def fibGoCount : Nat → Nat → Nat → Nat → Option Nat × Nat
  | 0, a, _, c => (some a, c)
  | k + 1, a, b, c =>
    match checked_add a b with
    | some next => fibGoCount k b next (c + 1)
    | none => (none, c + 1)

/-- `fibonacci` instrumented with the number of checked additions attempted. -/
def fibonacciCount (n : Nat) : Option Nat × Nat :=
  fibGoCount n 0 1 0

/-- A sequence of independent calls to the (pure, stateless) core: the
outcome list is the pointwise image of the input list. -/
def callResults (ns : List Nat) : List (Option Nat) :=
  ns.map fibonacci

/-- Decimal digit value of a digit character. -/
def decodeChar (c : Char) : Nat :=
  c.toNat - 48

/-- Reference decimal rendering of a natural number, recursing on division
by ten; used to reason about core's fuel-based `Nat.toDigits`. -/
def rep (n : Nat) : List Char :=
  if _h : n < 10 then [Nat.digitChar n]
  else rep (n / 10) ++ [Nat.digitChar (n % 10)]
termination_by n
decreasing_by
  exact Nat.div_lt_self (by omega) (by omega)

/-! ## Basic facts about the overflow boundary -/

theorem checked_add_eq (a b : Nat) :
    checked_add a b = if a + b < 2 ^ 128 then some (a + b) else none := by
  unfold checked_add
  by_cases h : a + b < 2 ^ 128
  · rw [if_pos h, if_pos (by omega)]
  · rw [if_neg h, if_neg (by omega)]

theorem fib_186_lt : Nat.fib 186 < 2 ^ 128 := by decide

theorem fib_187_ge : 2 ^ 128 ≤ Nat.fib 187 := by decide

theorem fib_lt_iff (m : Nat) : Nat.fib m < 2 ^ 128 ↔ m ≤ 186 := by
  constructor
  · intro h
    by_contra hm
    exact absurd (lt_of_le_of_lt (le_trans fib_187_ge (Nat.fib_mono (by omega))) h)
      (lt_irrefl _)
  · intro h
    exact lt_of_le_of_lt (Nat.fib_mono h) fib_186_lt

/-! ## Characterization of the loop -/

theorem fibGo_some (k : Nat) : ∀ i : Nat, Nat.fib (i + k + 1) < 2 ^ 128 →
    fibGo k (Nat.fib i) (Nat.fib (i + 1)) = some (Nat.fib (i + k)) := by
  induction k with
  | zero => intro i _; simp [fibGo]
  | succ k ih =>
    intro i h
    have hadd : Nat.fib i + Nat.fib (i + 1) = Nat.fib (i + 2) :=
      Nat.fib_add_two.symm
    have h2 : Nat.fib (i + 2) < 2 ^ 128 :=
      lt_of_le_of_lt (Nat.fib_mono (by omega)) h
    have hnext : checked_add (Nat.fib i) (Nat.fib (i + 1)) = some (Nat.fib (i + 2)) := by
      rw [checked_add_eq, hadd, if_pos h2]
    have hih := ih (i + 1) (by
      have e : i + 1 + k + 1 = i + (k + 1) + 1 := by omega
      rw [e]; exact h)
    have e2 : i + 1 + k = i + (k + 1) := by omega
    simp only [fibGo, hnext]
    rw [show i + 1 + 1 = i + 2 from by omega] at hih
    rw [hih, e2]

theorem fibGo_none (k : Nat) : ∀ i : Nat, 1 ≤ k → 2 ^ 128 ≤ Nat.fib (i + k + 1) →
    fibGo k (Nat.fib i) (Nat.fib (i + 1)) = none := by
  induction k with
  | zero => intro i hk _; omega
  | succ k ih =>
    intro i _ h
    have hadd : Nat.fib i + Nat.fib (i + 1) = Nat.fib (i + 2) :=
      Nat.fib_add_two.symm
    by_cases h2 : Nat.fib (i + 2) < 2 ^ 128
    · have hnext : checked_add (Nat.fib i) (Nat.fib (i + 1)) = some (Nat.fib (i + 2)) := by
        rw [checked_add_eq, hadd, if_pos h2]
      have hk1 : 1 ≤ k := by
        by_contra hk0
        have hk0' : k = 0 := by omega
        subst hk0'
        rw [show i + (0 + 1) + 1 = i + 2 from by omega] at h
        omega
      have hih := ih (i + 1) hk1 (by
        have e : i + 1 + k + 1 = i + (k + 1) + 1 := by omega
        rw [e]; exact h)
      simp only [fibGo, hnext]
      rw [show i + 1 + 1 = i + 2 from by omega] at hih
      exact hih
    · have hnext : checked_add (Nat.fib i) (Nat.fib (i + 1)) = none := by
        rw [checked_add_eq, hadd, if_neg h2]
      simp only [fibGo, hnext]

/-- The loop returns `some (F n)` when `n ≤ 185` and `none` otherwise: the
final iteration feeds `F (n + 1)` through the checked addition, so the
success condition is `F (n + 1) < 2 ^ 128`, i.e. `n + 1 ≤ 186`. -/
theorem fibonacci_eq (n : Nat) :
    fibonacci n = if n ≤ 185 then some (Nat.fib n) else none := by
  unfold fibonacci
  have e0 : (0 : Nat) = Nat.fib 0 := rfl
  have e1 : (1 : Nat) = Nat.fib 1 := rfl
  rw [e0, e1]
  by_cases h : n ≤ 185
  · rw [if_pos h]
    have hb : Nat.fib (0 + n + 1) < 2 ^ 128 := by
      rw [show (0 : Nat) + n + 1 = n + 1 from by omega]
      exact (fib_lt_iff (n + 1)).mpr (by omega)
    have := fibGo_some n 0 hb
    rwa [show (0 : Nat) + n = n from by omega, show (0 : Nat) + 1 = 1 from by omega] at this
  · rw [if_neg h]
    have hn : 1 ≤ n := by omega
    have hb : 2 ^ 128 ≤ Nat.fib (0 + n + 1) := by
      rw [show (0 : Nat) + n + 1 = n + 1 from by omega]
      by_contra hc
      push_neg at hc
      exact h (by have := (fib_lt_iff (n + 1)).mp hc; omega)
    have := fibGo_none n 0 hn hb
    rwa [show (0 : Nat) + 1 = 1 from by omega] at this

theorem fibonacci_at_185 :
    fibonacci 185 = some 205697230343233228174223751303346572685 := by
  rw [fibonacci_eq, if_pos (by omega)]
  decide

theorem fibonacci_at_186 : fibonacci 186 = none := by
  rw [fibonacci_eq, if_neg (by omega)]

theorem fibonacci_at_187 : fibonacci 187 = none := by
  rw [fibonacci_eq, if_neg (by omega)]

/-! ## Equivalence with the design-level algorithm -/

theorem fibGo_eq_specLoop (k : Nat) : ∀ a b : Nat,
    fibGo k a b = (specLoop k (a, b)).map Prod.fst := by
  induction k with
  | zero => intro a b; simp [fibGo, specLoop]
  | succ k ih =>
    intro a b
    simp only [fibGo, specLoop, specStep]
    cases h : checked_add a b with
    | some next => simp only [h, ih]
    | none => simp [h]

/-! ## Counting the checked additions -/

theorem fibGoCount_some (k : Nat) : ∀ i c : Nat, Nat.fib (i + k + 1) < 2 ^ 128 →
    fibGoCount k (Nat.fib i) (Nat.fib (i + 1)) c = (some (Nat.fib (i + k)), c + k) := by
  induction k with
  | zero => intro i c _; simp [fibGoCount]
  | succ k ih =>
    intro i c h
    have hadd : Nat.fib i + Nat.fib (i + 1) = Nat.fib (i + 2) :=
      Nat.fib_add_two.symm
    have h2 : Nat.fib (i + 2) < 2 ^ 128 :=
      lt_of_le_of_lt (Nat.fib_mono (by omega)) h
    have hnext : checked_add (Nat.fib i) (Nat.fib (i + 1)) = some (Nat.fib (i + 2)) := by
      rw [checked_add_eq, hadd, if_pos h2]
    have hih := ih (i + 1) (c + 1) (by
      rw [show i + 1 + k + 1 = i + (k + 1) + 1 from by omega]; exact h)
    simp only [fibGoCount, hnext]
    rw [show i + 1 + 1 = i + 2 from by omega] at hih
    rw [hih, show i + 1 + k = i + (k + 1) from by omega,
      show c + 1 + k = c + (k + 1) from by omega]

theorem fibGoCount_none (k : Nat) : ∀ i c : Nat, i ≤ 185 → 186 - i ≤ k →
    fibGoCount k (Nat.fib i) (Nat.fib (i + 1)) c = (none, c + (186 - i)) := by
  induction k with
  | zero => intro i c hi hk; exfalso; omega
  | succ k ih =>
    intro i c hi hk
    have hadd : Nat.fib i + Nat.fib (i + 1) = Nat.fib (i + 2) :=
      Nat.fib_add_two.symm
    by_cases hi185 : i = 185
    · subst hi185
      have hnext : checked_add (Nat.fib 185) (Nat.fib (185 + 1)) = none := by
        rw [checked_add_eq, hadd, if_neg (by
          have := fib_187_ge
          rw [show (185 : Nat) + 2 = 187 from by omega]
          omega)]
      simp only [fibGoCount, hnext]
    · have hi184 : i ≤ 184 := by omega
      have h2 : Nat.fib (i + 2) < 2 ^ 128 := (fib_lt_iff (i + 2)).mpr (by omega)
      have hnext : checked_add (Nat.fib i) (Nat.fib (i + 1)) = some (Nat.fib (i + 2)) := by
        rw [checked_add_eq, hadd, if_pos h2]
      have hih := ih (i + 1) (c + 1) (by omega) (by omega)
      simp only [fibGoCount, hnext]
      rw [show i + 1 + 1 = i + 2 from by omega] at hih
      rw [hih, show c + 1 + (186 - (i + 1)) = c + (186 - i) from by omega]

/-! ## The decimal rendering used by the error message is injective -/

theorem decodeChar_digitChar (d : Nat) (h : d < 10) :
    decodeChar (Nat.digitChar d) = d := by
  interval_cases d <;> rfl

theorem rep_foldl (n : Nat) : ∀ a : Nat,
    (rep n).foldl (fun x c => 10 * x + decodeChar c) a
      = a * 10 ^ (rep n).length + n := by
  induction n using Nat.strong_induction_on with
  | _ n ih =>
    intro a
    by_cases h : n < 10
    · rw [rep, dif_pos h]
      simp only [List.foldl_cons, List.foldl_nil, List.length_cons,
        List.length_nil, decodeChar_digitChar n h]
      simp [pow_one]
      omega
    · have hlt : n / 10 < n := Nat.div_lt_self (by omega) (by omega)
      rw [rep, dif_neg h, List.foldl_append, ih (n / 10) hlt a]
      have hd : decodeChar (Nat.digitChar (n % 10)) = n % 10 :=
        decodeChar_digitChar (n % 10) (Nat.mod_lt n (by omega))
      simp only [List.foldl_cons, List.foldl_nil, hd, List.length_append,
        List.length_cons, List.length_nil]
      have expand : 10 * (a * 10 ^ (rep (n / 10)).length + n / 10) + n % 10
          = a * 10 ^ ((rep (n / 10)).length + (0 + 1)) + (10 * (n / 10) + n % 10) := by
        ring
      rw [expand, Nat.div_add_mod]

theorem rep_injective : Function.Injective rep := by
  intro m n h
  have hm := rep_foldl m 0
  have hn := rep_foldl n 0
  rw [h] at hm
  simp only [Nat.zero_mul, Nat.zero_add] at hm hn
  omega

theorem rep_lt_ten (n : Nat) (h : n < 10) : rep n = [Nat.digitChar n] := by
  rw [rep]
  exact dif_pos h

theorem rep_ge_ten (n : Nat) (h : 10 ≤ n) :
    rep n = rep (n / 10) ++ [Nat.digitChar (n % 10)] := by
  rw [rep]
  exact dif_neg (by omega)

theorem toDigitsCore_succ (f n : Nat) (ds : List Char) :
    Nat.toDigitsCore 10 (f + 1) n ds =
      if n / 10 = 0 then Nat.digitChar (n % 10) :: ds
      else Nat.toDigitsCore 10 f (n / 10) (Nat.digitChar (n % 10) :: ds) := by
  simp only [Nat.toDigitsCore]

theorem toDigitsCore_eq_rep (f : Nat) : ∀ n ds, n ≤ f →
    Nat.toDigitsCore 10 (f + 1) n ds = rep n ++ ds := by
  induction f with
  | zero =>
    intro n ds hn
    have h0 : n = 0 := by omega
    subst h0
    rw [toDigitsCore_succ 0 0 ds, if_pos (by omega), rep, dif_pos (by omega)]
    simp
  | succ f ih =>
    intro n ds hn
    rw [toDigitsCore_succ (f + 1) n ds]
    by_cases h0 : n / 10 = 0
    · have hlt : n < 10 := (Nat.div_eq_zero_iff (by omega)).mp h0
      rw [if_pos h0, Nat.mod_eq_of_lt hlt, rep_lt_ten n hlt]
      simp
    · have h10 : 10 ≤ n := by
        by_contra hc
        exact h0 (Nat.div_eq_of_lt (by omega))
      have hdiv : n / 10 ≤ f := by
        have := Nat.div_lt_self (by omega : 0 < n) (by omega : 1 < 10)
        omega
      rw [if_neg h0, ih (n / 10) (Nat.digitChar (n % 10) :: ds) hdiv,
        rep_ge_ten n h10]
      simp

theorem toDigits_eq_rep (n : Nat) : Nat.toDigits 10 n = rep n := by
  have h := toDigitsCore_eq_rep n n [] (le_refl n)
  simpa [Nat.toDigits] using h

theorem repr_injective : Function.Injective Nat.repr := by
  intro m n h
  apply rep_injective
  have h2 : (Nat.toDigits 10 m).asString = (Nat.toDigits 10 n).asString := h
  have h3 := congrArg String.data h2
  simpa [List.asString, toDigits_eq_rep] using h3

theorem overflowMessage_injective : Function.Injective overflowMessage := by
  intro m n h
  apply repr_injective
  have hd := congrArg String.data h
  simp only [overflowMessage, String.data_append] at hd
  apply String.ext
  exact List.append_cancel_left (List.append_cancel_right hd)

theorem fibonacciCount_eq (n : Nat) :
    fibonacciCount n = (fibonacci n, min n 186) := by
  unfold fibonacciCount
  rw [fibonacci_eq]
  by_cases h : n ≤ 185
  · have hb : Nat.fib (0 + n + 1) < 2 ^ 128 := by
      rw [show (0 : Nat) + n + 1 = n + 1 from by omega]
      exact (fib_lt_iff (n + 1)).mpr (by omega)
    have hc := fibGoCount_some n 0 0 hb
    rw [if_pos h, show min n 186 = n from by omega]
    simpa using hc
  · have hc := fibGoCount_none n 0 0 (by omega) (by omega)
    rw [if_neg h, show min n 186 = 186 from by omega]
    simpa using hc

/-! ## The claims -/

/-- C1: The spec claims that for every n in [0, 186] `compute n` succeeds
with the exact Fibonacci number, in particular at n = 186 with
F 186 = 332825110087067562321196029789634457848. The code disagrees at the
failing input n = 186: `fibonacci 186 = none`, even though F 186 is
representable in 128 bits — the loop's final iteration needlessly feeds
F 187 through the checked addition, contradicting the function's own doc
comment ("None if it does not fit into a u128"). -/
theorem c1_code_fails_at_186 :
    fibonacci 186 = none ∧
      Nat.fib 186 = 332825110087067562321196029789634457848 ∧
      Nat.fib 186 ≤ 2 ^ 128 - 1 :=
  ⟨fibonacci_at_186, by decide, by decide⟩

/-- C2: `compute 187` fails with an overflow error and returns no value:
`fibonacci 187 = none`, and `implementation 187` raises the overflow error
with the formatted message. -/
theorem c2_overflow_at_187 :
    fibonacci 187 = none ∧
      implementation 187 = Except.error (overflowMessage 187) := by
  refine ⟨fibonacci_at_187, ?_⟩
  unfold implementation
  rw [fibonacci_at_187]

/-- C3: The spec claims the overflow error is raised exactly when F n is not
representable in 128 bits. The code disagrees at the failing input n = 186:
F 186 < 2 ^ 128 is representable, yet `fibonacci 186 = none`. -/
theorem c3_error_despite_representable :
    Nat.fib 186 < 2 ^ 128 ∧ fibonacci 186 = none :=
  ⟨fib_186_lt, fibonacci_at_186⟩

/-- C4: for every u32 input n, `fibonacci n` is `some` exactly when
n ≤ 185 (the loop's final iteration feeds F (n + 1) through the checked
addition), and whenever it is `some v`, the value v is the exact
mathematical Fibonacci number F n. -/
theorem c4_some_iff_le_185 (n : Nat) (_hn : n < 2 ^ 32) :
    ((fibonacci n).isSome ↔ n ≤ 185) ∧
      ∀ v, fibonacci n = some v → v = Nat.fib n := by
  constructor
  · rw [fibonacci_eq]
    by_cases h : n ≤ 185
    · rw [if_pos h]; simp [h]
    · rw [if_neg h]; simp [h]
  · intro v hv
    rw [fibonacci_eq] at hv
    by_cases h : n ≤ 185
    · rw [if_pos h] at hv
      exact (Option.some.inj hv).symm
    · rw [if_neg h] at hv
      exact absurd hv (by simp)

/-- Witness for C4 at the concrete inputs n = 186 and n = 10. -/
theorem c4_witness : (fibonacci 186).isSome = false ∧ 55 = Nat.fib 10 := by
  constructor
  · have h := (c4_some_iff_le_185 186 (by decide)).1
    simp only [show ¬(186 ≤ 185) from by omega, iff_false] at h
    simpa using h
  · exact (c4_some_iff_le_185 10 (by decide)).2 55 (by decide)

/-- C5: whenever `fibonacci n` succeeds, the returned value is the exact
mathematical Fibonacci number F n — never a wrapped, truncated or saturated
value. -/
theorem c5_exact_on_success (n v : Nat) (h : fibonacci n = some v) :
    v = Nat.fib n := by
  rw [fibonacci_eq] at h
  by_cases hn : n ≤ 185
  · rw [if_pos hn] at h
    exact (Option.some.inj h).symm
  · rw [if_neg hn] at h
    exact absurd h (by simp)

/-- Witness for C5 at the concrete input n = 10, v = 55. -/
theorem c5_witness : fibonacci 10 = some 55 ∧ 55 = Nat.fib 10 :=
  ⟨by decide, c5_exact_on_success 10 55 (by decide)⟩

/-- C6: the implementation refines the spec's design-level algorithm
(accumulators start at (0, 1), the pair advances to (curr, next) on each
non-overflowing checked addition, `prev` is returned after the loop), and it
attempts exactly n checked additions for input n, terminating at the first
addition that overflows (which caps the count at 186 additions). -/
theorem c6_refines_design :
    (∀ n, fibonacci n = specCompute n) ∧
      (∀ n, fibonacciCount n = (fibonacci n, min n 186)) := by
  constructor
  · intro n
    unfold fibonacci specCompute
    exact fibGo_eq_specLoop n 0 1
  · exact fibonacciCount_eq

/-- C7: overflow failure is monotone in n: if `fibonacci k` fails then
`fibonacci (k + 1)` fails as well. -/
theorem c7_overflow_monotone (k : Nat) (h : fibonacci k = none) :
    fibonacci (k + 1) = none := by
  rw [fibonacci_eq] at h ⊢
  by_cases hk : k ≤ 185
  · rw [if_pos hk] at h
    exact absurd h (by simp)
  · rw [if_neg (by omega)]

/-- Witness for C7 at the concrete input k = 186. -/
theorem c7_witness : fibonacci 186 = none ∧ fibonacci 187 = none :=
  ⟨fibonacci_at_186, c7_overflow_monotone 186 fibonacci_at_186⟩

/-- C8: the computation is deterministic and stateless: in any two sequences
of calls, calls with the same input n yield the identical outcome,
independent of position in the sequence and of the other (prior) calls. -/
theorem c8_pure_calls (ns ms : List Nat) (i j : Nat)
    (hi : i < ns.length) (hj : j < ms.length)
    (h : ns.get ⟨i, hi⟩ = ms.get ⟨j, hj⟩) :
    (callResults ns).get ⟨i, by simpa [callResults] using hi⟩
      = (callResults ms).get ⟨j, by simpa [callResults] using hj⟩ := by
  have h2 : ns[i] = ms[j] := by simpa using h
  simp [callResults, h2]

/-- Witness for C8: the call sequences [5, 187] and [187, 3, 5] agree on the
input 5, placed at different positions and after different prior calls. -/
theorem c8_witness :
    ([5, 187] : List Nat).get ⟨0, by decide⟩ = ([187, 3, 5] : List Nat).get ⟨2, by decide⟩ ∧
      (callResults [5, 187]).get ⟨0, by simp [callResults]⟩
        = (callResults [187, 3, 5]).get ⟨2, by simp [callResults]⟩ :=
  ⟨by decide, c8_pure_calls [5, 187] [187, 3, 5] 0 2 (by decide) (by decide) (by decide)⟩

/-- C9: base cases: `fibonacci 0 = some 0` (the loop body never executes:
`fibGo 0 a b = some a` for all a, b), `fibonacci 1 = some 1`,
`fibonacci 2 = some 1`, and `fibonacci 10 = some 55`. -/
theorem c9_base_cases :
    fibonacci 0 = some 0 ∧ fibonacci 1 = some 1 ∧ fibonacci 2 = some 1 ∧
      fibonacci 10 = some 55 ∧ ∀ a b : Nat, fibGo 0 a b = some a :=
  ⟨by decide, by decide, by decide, by decide, fun a _ => rfl⟩

/-- C10: on overflow the error carries the offending index n: the raised
error is exactly the message formatted for n, and the message determines n
uniquely (the formatting is injective), so the caller can identify which
index overflowed. -/
theorem c10_error_carries_n :
    (∀ n, fibonacci n = none → implementation n = Except.error (overflowMessage n)) ∧
      Function.Injective overflowMessage := by
  constructor
  · intro n h
    unfold implementation
    rw [h]
  · exact overflowMessage_injective

/-- Witness for C10 at the concrete input n = 187. -/
theorem c10_witness : implementation 187 = Except.error (overflowMessage 187) :=
  c10_error_carries_n.1 187 fibonacci_at_187
